import Mathlib

/-!
Shallow embedding of the node-removal latency tracker from
`cluster-autoscaler/core/scaledown/latencytracker/node_latency_tracker.go`.

Modelling decisions:
- Go `time.Time` / `time.Duration` are modelled as `Int` (nanoseconds).
  `time.Time.Sub` and duration subtraction are exact integer subtraction;
  int64 overflow is irrelevant at the scale of wall-clock durations and is
  not modelled.
- The Go map `nodes map[string]nodeInfo` is modelled as an association list
  `List (String × NodeInfo)` whose keys are unique (`KeysNodup`); `delete`
  removes every entry with the key (identical, under key uniqueness, to
  removing the unique entry), and a store overwrites the entry in place.
- The Go map `currentlyInDeletion map[string]bool` is modelled as
  `List (String × Bool)`; the source consults it only through
  `_, inDeletion := currentlyInDeletion[name]`, i.e. key presence.
- A call to `metrics.UpdateScaleDownNodeRemovalLatency(tag, d)` is modelled
  as appending a `MetricSample` to the operation's emission list.  The
  `node` field of `MetricSample` is ghost instrumentation recording which
  tracked node the emission call site was handling (the loop variable /
  argument at the call site); the real metric carries only the tag and the
  duration.
-/

namespace LatencyTracker

abbrev Time := Int
abbrev Duration := Int

/-- Per-node tracking state (`nodeInfo` in the source). -/
structure NodeInfo where
  unneededSince : Time
  threshold : Duration
deriving DecidableEq

/-- One emitted metric sample: the tag passed to
`metrics.UpdateScaleDownNodeRemovalLatency` and the duration value; `node`
is ghost data naming the node the call site was removing. -/
structure MetricSample where
  node : String
  actuatorInitiated : Bool
  duration : Duration
deriving DecidableEq

/-- Tracker state (`NodeLatencyTracker` in the source): the `nodes` map. -/
structure NodeLatencyTracker where
  nodes : List (String × NodeInfo)
deriving DecidableEq

/-- Constructor `NewNodeLatencyTracker` in the source: empty map. -/
def NewNodeLatencyTracker : NodeLatencyTracker := ⟨[]⟩

/-- Association-list lookup, the model of `t.nodes[name]`. -/
def lookupNode : List (String × NodeInfo) → String → Option NodeInfo
  | [], _ => none
  | p :: ns, name => if p.1 == name then some p.2 else lookupNode ns name

/-- Key-presence test, the model of `_, exists := t.nodes[name]`. -/
def keyMem (ns : List (String × NodeInfo)) (name : String) : Bool :=
  ns.any (fun p => p.1 == name)

def NodeLatencyTracker.lookup (t : NodeLatencyTracker) (name : String) :
    Option NodeInfo :=
  lookupNode t.nodes name

/-- The map has unique keys: the representation invariant of a Go map. -/
def KeysNodup (t : NodeLatencyTracker) : Prop :=
  (t.nodes.map Prod.fst).Nodup

/-- Body of the first loop of `UpdateStateWithUnneededList`: if the name is
not yet tracked, store a fresh entry with `unneededSince = timestamp` and
`threshold = 0`. -/
def insertIfAbsent (ns : List (String × NodeInfo)) (name : String)
    (timestamp : Time) : List (String × NodeInfo) :=
  if keyMem ns name then ns else ns ++ [(name, ⟨timestamp, 0⟩)]

/-- The first loop of `UpdateStateWithUnneededList` over the unneeded list. -/
def trackNew (ns : List (String × NodeInfo)) (list : List String)
    (timestamp : Time) : List (String × NodeInfo) :=
  list.foldl (fun acc name => insertIfAbsent acc name timestamp) ns

/-- Key-presence test on `currentlyInDeletion`, the model of
`_, inDeletion := currentlyInDeletion[name]`: the Bool value is ignored. -/
def delKeys (dels : List (String × Bool)) (name : String) : Bool :=
  dels.any (fun q => q.1 == name)

/-- The removal condition of the second loop of `UpdateStateWithUnneededList`:
the node is absent from `currentSet` and absent from `currentlyInDeletion`.
It depends only on the node's key. -/
def shouldRemoveKey (list : List String) (dels : List (String × Bool))
    (name : String) : Bool :=
  !(list.contains name) && !(delKeys dels name)

/-- Reconciliation, `UpdateStateWithUnneededList` from the source.  First loop: track every
listed node not yet present (fresh `unneededSince = timestamp`,
`threshold = 0`).  Second loop: every tracked node absent from the list and
absent from `currentlyInDeletion` is removed from the map, emitting one
sample tagged `false` with duration `timestamp - unneededSince - threshold`. -/
def UpdateStateWithUnneededList (t : NodeLatencyTracker) (list : List String)
    (currentlyInDeletion : List (String × Bool)) (timestamp : Time) :
    NodeLatencyTracker × List MetricSample :=
  let nodes1 := trackNew t.nodes list timestamp
  let removed := nodes1.filter
    (fun p => shouldRemoveKey list currentlyInDeletion p.1)
  let kept := nodes1.filter
    (fun p => !(shouldRemoveKey list currentlyInDeletion p.1))
  (⟨kept⟩, removed.map
    (fun p => ⟨p.1, false, timestamp - p.2.unneededSince - p.2.threshold⟩))

/-- Explicit deletion, `ObserveDeletion` from the source: if the node is tracked, emit one
sample tagged `true` with duration `timestamp - unneededSince - threshold`
and delete the entry; otherwise do nothing. -/
def ObserveDeletion (t : NodeLatencyTracker) (nodeName : String)
    (timestamp : Time) : NodeLatencyTracker × Option MetricSample :=
  match lookupNode t.nodes nodeName with
  | some info =>
      (⟨t.nodes.filter (fun p => !(p.1 == nodeName))⟩,
       some ⟨nodeName, true,
             timestamp - info.unneededSince - info.threshold⟩)
  | none => (t, none)

/-- Threshold mutation, `UpdateThreshold` from the source: if the node is tracked, store the
fetched entry back with the new threshold (the `unneededSince` of the
fetched entry is kept); otherwise do nothing. -/
def UpdateThreshold (t : NodeLatencyTracker) (nodeName : String)
    (threshold : Duration) : NodeLatencyTracker :=
  match lookupNode t.nodes nodeName with
  | some info =>
      ⟨t.nodes.map (fun p =>
        if p.1 == nodeName then (p.1, ⟨info.unneededSince, threshold⟩)
        else p)⟩
  | none => t

/-- Introspection, `GetTrackedNodes` from the source: the keys of the map. -/
def GetTrackedNodes (t : NodeLatencyTracker) : List String :=
  t.nodes.map Prod.fst

/-! ### Basic lemmas about the association-list map -/

theorem lookupNode_nil (name : String) : lookupNode [] name = none := rfl

theorem lookupNode_cons (p : String × NodeInfo) (ns : List (String × NodeInfo))
    (name : String) :
    lookupNode (p :: ns) name =
      if p.1 == name then some p.2 else lookupNode ns name := rfl

theorem keyMem_eq_isSome_lookupNode (ns : List (String × NodeInfo))
    (name : String) : keyMem ns name = (lookupNode ns name).isSome := by
  induction ns with
  | nil => rfl
  | cons p ns ih =>
      simp only [keyMem, List.any_cons, lookupNode_cons]
      by_cases h : p.1 == name
      · simp [h]
      · simp only [Bool.not_eq_true] at h
        simp [h, ← ih, keyMem]

theorem lookupNode_append (ns ms : List (String × NodeInfo)) (name : String) :
    lookupNode (ns ++ ms) name =
      match lookupNode ns name with
      | some i => some i
      | none => lookupNode ms name := by
  induction ns with
  | nil => simp [lookupNode]
  | cons p ns ih =>
      simp only [List.cons_append, lookupNode_cons]
      by_cases h : p.1 == name
      · simp [h]
      · simp only [Bool.not_eq_true] at h
        simp [h, ih]

theorem lookupNode_eq_none_of_not_mem_keys (ns : List (String × NodeInfo))
    (name : String) (h : ¬ name ∈ ns.map Prod.fst) :
    lookupNode ns name = none := by
  induction ns with
  | nil => rfl
  | cons p ns ih =>
      simp only [List.map_cons, List.mem_cons] at h
      push_neg at h
      have hne : (p.1 == name) = false := by
        simp [beq_eq_false_iff_ne]
        exact fun e => h.1 e.symm
      simp [lookupNode_cons, hne, ih h.2]

/-! ### Lemmas about the insertion phase of reconciliation -/

theorem lookupNode_insertIfAbsent (ns : List (String × NodeInfo))
    (name m : String) (ts : Time) :
    lookupNode (insertIfAbsent ns name ts) m =
      match lookupNode ns m with
      | some i => some i
      | none => if m = name then some ⟨ts, 0⟩ else none := by
  unfold insertIfAbsent
  by_cases h : keyMem ns name
  · rw [if_pos h]
    rw [keyMem_eq_isSome_lookupNode] at h
    cases hm : lookupNode ns m with
    | some i => rfl
    | none =>
        by_cases hmn : m = name
        · subst hmn
          rw [hm] at h
          simp at h
        · simp [hmn]
  · rw [if_neg h, lookupNode_append]
    cases hm : lookupNode ns m with
    | some i => rfl
    | none =>
        by_cases hmn : m = name
        · subst hmn
          simp [lookupNode]
        · have : (name == m) = false := by
            simp [beq_eq_false_iff_ne]
            exact fun e => hmn e.symm
          simp [lookupNode, this, hmn]

theorem lookupNode_trackNew (list : List String) (ns : List (String × NodeInfo))
    (m : String) (ts : Time) :
    lookupNode (trackNew ns list ts) m =
      match lookupNode ns m with
      | some i => some i
      | none => if m ∈ list then some ⟨ts, 0⟩ else none := by
  induction list generalizing ns with
  | nil =>
      cases hm : lookupNode ns m with
      | some i => simpa [trackNew] using hm
      | none => simpa [trackNew] using hm
  | cons n l ih =>
      have hstep : trackNew ns (n :: l) ts =
          trackNew (insertIfAbsent ns n ts) l ts := rfl
      rw [hstep, ih, lookupNode_insertIfAbsent]
      cases hm : lookupNode ns m with
      | some i => rfl
      | none =>
          by_cases hmn : m = n
          · subst hmn
            simp
          · simp only [if_neg hmn]
            simp [List.mem_cons, hmn]

theorem keys_insertIfAbsent (ns : List (String × NodeInfo)) (name : String)
    (ts : Time) :
    (insertIfAbsent ns name ts).map Prod.fst =
      if keyMem ns name then ns.map Prod.fst
      else ns.map Prod.fst ++ [name] := by
  unfold insertIfAbsent
  by_cases h : keyMem ns name <;> simp [h]

theorem mem_keys_iff_keyMem (ns : List (String × NodeInfo)) (name : String) :
    name ∈ ns.map Prod.fst ↔ keyMem ns name = true := by
  simp [keyMem, List.any_eq_true, List.mem_map]

theorem keysNodup_insertIfAbsent (ns : List (String × NodeInfo)) (name : String)
    (ts : Time) (h : (ns.map Prod.fst).Nodup) :
    ((insertIfAbsent ns name ts).map Prod.fst).Nodup := by
  rw [keys_insertIfAbsent]
  by_cases hk : keyMem ns name
  · simpa [hk] using h
  · have hnm : ¬ name ∈ ns.map Prod.fst := by
      rw [mem_keys_iff_keyMem]
      simp [hk]
    have happ : (ns.map Prod.fst ++ [name]).Nodup :=
      List.Nodup.append h (List.nodup_singleton name)
        (by intro a ha hb; simp at hb; subst hb; exact hnm ha)
    simpa [hk] using happ

theorem keysNodup_trackNew (list : List String) (ns : List (String × NodeInfo))
    (ts : Time) (h : (ns.map Prod.fst).Nodup) :
    ((trackNew ns list ts).map Prod.fst).Nodup := by
  induction list generalizing ns with
  | nil => simpa [trackNew] using h
  | cons n l ih =>
      have hstep : trackNew ns (n :: l) ts =
          trackNew (insertIfAbsent ns n ts) l ts := rfl
      rw [hstep]
      exact ih _ (keysNodup_insertIfAbsent ns n ts h)

/-! ### Lemmas about filtering by a key predicate -/

theorem lookupNode_filter_key (k : String → Bool) (ns : List (String × NodeInfo))
    (name : String) :
    lookupNode (ns.filter (fun p => k p.1)) name =
      if k name then lookupNode ns name else none := by
  induction ns with
  | nil => simp [lookupNode]
  | cons p ns ih =>
      by_cases hk : k p.1
      · rw [List.filter_cons_of_pos (by simpa using hk)]
        rw [lookupNode_cons, lookupNode_cons]
        by_cases hpn : p.1 == name
        · have : p.1 = name := by simpa using hpn
          subst this
          simp [hpn, hk]
        · simp only [Bool.not_eq_true] at hpn
          simp [hpn, ih]
      · rw [List.filter_cons_of_neg (by simpa using hk)]
        rw [ih, lookupNode_cons]
        by_cases hpn : p.1 == name
        · have : p.1 = name := by simpa using hpn
          subst this
          simp only [Bool.not_eq_true] at hk
          simp [hk, hpn]
        · simp only [Bool.not_eq_true] at hpn
          simp [hpn]

theorem filter_key_eq_nil_of_lookupNode_none (ns : List (String × NodeInfo))
    (name : String) (h : lookupNode ns name = none) :
    ns.filter (fun p => p.1 == name) = [] := by
  induction ns with
  | nil => rfl
  | cons p ns ih =>
      rw [lookupNode_cons] at h
      by_cases hpn : p.1 == name
      · simp [hpn] at h
      · simp only [Bool.not_eq_true] at hpn
        rw [List.filter_cons_of_neg (by simpa using hpn)]
        simp only [hpn, Bool.false_eq_true, if_false] at h
        exact ih h

theorem length_filter_key_of_nodup (ns : List (String × NodeInfo))
    (name : String) (h : (ns.map Prod.fst).Nodup) :
    (ns.filter (fun p => p.1 == name)).length =
      if (lookupNode ns name).isSome then 1 else 0 := by
  induction ns with
  | nil => simp [lookupNode]
  | cons p ns ih =>
      simp only [List.map_cons, List.nodup_cons] at h
      rw [lookupNode_cons]
      by_cases hpn : p.1 == name
      · have heq : p.1 = name := by simpa using hpn
        subst heq
        rw [List.filter_cons_of_pos (by simp)]
        have hnone : lookupNode ns p.1 = none :=
          lookupNode_eq_none_of_not_mem_keys ns p.1 h.1
        rw [filter_key_eq_nil_of_lookupNode_none ns p.1 hnone]
        simp
      · simp only [Bool.not_eq_true] at hpn
        rw [List.filter_cons_of_neg (by simpa using hpn)]
        simp only [hpn, Bool.false_eq_true, if_false]
        exact ih h.2

theorem length_filter_add_length_filter_not (ns : List (String × NodeInfo))
    (p : String × NodeInfo → Bool) :
    (ns.filter p).length + (ns.filter (fun a => !(p a))).length = ns.length := by
  induction ns with
  | nil => rfl
  | cons a ns ih =>
      by_cases h : p a
      · rw [List.filter_cons_of_pos (by simpa using h),
            List.filter_cons_of_neg (by simpa using h)]
        simp [← ih]
        omega
      · simp only [Bool.not_eq_true] at h
        rw [List.filter_cons_of_neg (by simp [h]),
            List.filter_cons_of_pos (by simp [h])]
        simp [← ih]
        omega

/-! ### Characterization of the three mutating operations -/

theorem lookup_UpdateStateWithUnneededList (t : NodeLatencyTracker)
    (list : List String) (dels : List (String × Bool)) (ts : Time) (n : String) :
    (UpdateStateWithUnneededList t list dels ts).1.lookup n =
      if n ∈ list then
        (match t.lookup n with
         | some i => some i
         | none => some ⟨ts, 0⟩)
      else if delKeys dels n then t.lookup n
      else none := by
  show lookupNode ((trackNew t.nodes list ts).filter
      (fun p => !(shouldRemoveKey list dels p.1))) n = _
  rw [lookupNode_filter_key (fun x => !(shouldRemoveKey list dels x))]
  rw [lookupNode_trackNew]
  unfold shouldRemoveKey
  simp only [NodeLatencyTracker.lookup]
  by_cases hl : n ∈ list
  · have hc : list.contains n = true := by simpa using hl
    simp only [hc, Bool.not_true, Bool.false_and, Bool.not_false, if_pos hl]
    cases ht : lookupNode t.nodes n <;> simp [ht]
  · have hc : list.contains n = false := by simpa using hl
    simp only [hc, Bool.not_false, Bool.true_and, if_neg hl]
    by_cases hd : delKeys dels n
    · simp only [hd, Bool.not_true, if_pos hd]
      cases ht : lookupNode t.nodes n with
      | some i => simp [ht]
      | none => simp [ht, hl]
    · simp only [Bool.not_eq_true] at hd
      simp [hd]

theorem snd_ObserveDeletion (t : NodeLatencyTracker) (n : String) (ts : Time) :
    (ObserveDeletion t n ts).2 =
      (t.lookup n).map
        (fun info => ⟨n, true, ts - info.unneededSince - info.threshold⟩) := by
  show (ObserveDeletion t n ts).2 = (lookupNode t.nodes n).map _
  unfold ObserveDeletion
  cases h : lookupNode t.nodes n <;> simp [h]

theorem lookup_ObserveDeletion_self (t : NodeLatencyTracker) (n : String)
    (ts : Time) : (ObserveDeletion t n ts).1.lookup n = none := by
  unfold ObserveDeletion
  cases h : lookupNode t.nodes n with
  | none => exact h
  | some info =>
      show lookupNode (t.nodes.filter (fun p => !(p.1 == n))) n = none
      rw [lookupNode_filter_key (fun x => !(x == n))]
      simp

theorem lookup_ObserveDeletion_other (t : NodeLatencyTracker) (n m : String)
    (ts : Time) (h : ¬ m = n) :
    (ObserveDeletion t n ts).1.lookup m = t.lookup m := by
  unfold ObserveDeletion
  cases hl : lookupNode t.nodes n with
  | none => rfl
  | some info =>
      show lookupNode (t.nodes.filter (fun p => !(p.1 == n))) m =
        lookupNode t.nodes m
      rw [lookupNode_filter_key (fun x => !(x == n))]
      have : (m == n) = false := by simpa using h
      simp [this]

theorem length_ObserveDeletion_of_tracked (t : NodeLatencyTracker) (n : String)
    (ts : Time) (info : NodeInfo) (hnd : KeysNodup t)
    (h : t.lookup n = some info) :
    (ObserveDeletion t n ts).1.nodes.length + 1 = t.nodes.length := by
  unfold ObserveDeletion
  have h' : lookupNode t.nodes n = some info := h
  rw [h']
  show (t.nodes.filter (fun p => !(p.1 == n))).length + 1 = t.nodes.length
  have hsplit := length_filter_add_length_filter_not t.nodes
    (fun p => p.1 == n)
  have hone := length_filter_key_of_nodup t.nodes n hnd
  rw [h'] at hone
  simp only [Option.isSome_some, if_true] at hone
  omega

theorem lookupNode_overwrite_self (ns : List (String × NodeInfo)) (n : String)
    (v : NodeInfo) :
    lookupNode (ns.map (fun p => if p.1 == n then (p.1, v) else p)) n =
      (lookupNode ns n).map (fun _ => v) := by
  induction ns with
  | nil => rfl
  | cons p ns ih =>
      obtain ⟨k, w⟩ := p
      simp only [List.map_cons, lookupNode_cons]
      rw [ih]
      by_cases hk : k = n
      · simp [hk]
      · simp [hk]

theorem lookupNode_overwrite_other (ns : List (String × NodeInfo)) (n m : String)
    (v : NodeInfo) (h : ¬ m = n) :
    lookupNode (ns.map (fun p => if p.1 == n then (p.1, v) else p)) m =
      lookupNode ns m := by
  have hnm : ¬ n = m := fun e => h e.symm
  induction ns with
  | nil => rfl
  | cons p ns ih =>
      obtain ⟨k, w⟩ := p
      simp only [List.map_cons, lookupNode_cons]
      rw [ih]
      by_cases hk : k = n
      · simp [hk, hnm]
      · by_cases hkm : k = m
        · subst hkm
          simp [hk, hnm]
        · simp [hk, hkm]

theorem keys_overwrite (ns : List (String × NodeInfo)) (n : String)
    (v : NodeInfo) :
    (ns.map (fun p => if p.1 == n then (p.1, v) else p)).map Prod.fst =
      ns.map Prod.fst := by
  induction ns with
  | nil => rfl
  | cons p ns ih =>
      obtain ⟨k, w⟩ := p
      simp only [List.map_cons]
      rw [ih]
      by_cases hk : k = n
      · simp [hk]
      · simp [hk]

theorem lookup_UpdateThreshold_self (t : NodeLatencyTracker) (n : String)
    (th : Duration) (info : NodeInfo) (h : t.lookup n = some info) :
    (UpdateThreshold t n th).lookup n = some ⟨info.unneededSince, th⟩ := by
  unfold UpdateThreshold
  have h' : lookupNode t.nodes n = some info := h
  rw [h']
  show lookupNode (t.nodes.map _) n = _
  rw [lookupNode_overwrite_self, h']
  rfl

theorem lookup_UpdateThreshold_other (t : NodeLatencyTracker) (n m : String)
    (th : Duration) (h : ¬ m = n) :
    (UpdateThreshold t n th).lookup m = t.lookup m := by
  unfold UpdateThreshold
  cases hl : lookupNode t.nodes n with
  | none => rfl
  | some info =>
      show lookupNode (t.nodes.map _) m = lookupNode t.nodes m
      exact lookupNode_overwrite_other t.nodes n m _ h

theorem keys_UpdateThreshold (t : NodeLatencyTracker) (n : String)
    (th : Duration) :
    GetTrackedNodes (UpdateThreshold t n th) = GetTrackedNodes t := by
  unfold UpdateThreshold GetTrackedNodes
  cases hl : lookupNode t.nodes n with
  | none => rfl
  | some info => exact keys_overwrite t.nodes n _

/-! ### Lemmas about the emissions of reconciliation -/

theorem snd_UpdateStateWithUnneededList (t : NodeLatencyTracker)
    (list : List String) (dels : List (String × Bool)) (ts : Time) :
    (UpdateStateWithUnneededList t list dels ts).2 =
      ((trackNew t.nodes list ts).filter
        (fun p => shouldRemoveKey list dels p.1)).map
        (fun p => ⟨p.1, false, ts - p.2.unneededSince - p.2.threshold⟩) := rfl

theorem lookupNode_some_mem (ns : List (String × NodeInfo)) (n : String)
    (info : NodeInfo) (h : lookupNode ns n = some info) : (n, info) ∈ ns := by
  induction ns with
  | nil => simp [lookupNode] at h
  | cons p ns ih =>
      rw [lookupNode_cons] at h
      by_cases hpn : (p.1 == n) = true
      · rw [if_pos hpn] at h
        have h1 : p.1 = n := by simpa using hpn
        have h2 : p.2 = info := by simpa using h
        have hp : p = (n, info) := by
          obtain ⟨a, b⟩ := p
          simp only at h1 h2
          rw [h1, h2]
        rw [← hp]
        exact List.mem_cons_self p ns
      · rw [if_neg hpn] at h
        exact List.mem_cons_of_mem _ (ih h)

theorem trackNew_eq_append (list : List String) (ns : List (String × NodeInfo))
    (ts : Time) : ∃ ms, trackNew ns list ts = ns ++ ms := by
  induction list generalizing ns with
  | nil => exact ⟨[], by simp [trackNew]⟩
  | cons n l ih =>
      have hstep : trackNew ns (n :: l) ts =
          trackNew (insertIfAbsent ns n ts) l ts := rfl
      rw [hstep]
      by_cases hk : keyMem ns n
      · have hins : insertIfAbsent ns n ts = ns := by
          unfold insertIfAbsent
          rw [if_pos hk]
        rw [hins]
        exact ih ns
      · have hins : insertIfAbsent ns n ts = ns ++ [(n, ⟨ts, 0⟩)] := by
          unfold insertIfAbsent
          rw [if_neg hk]
        rw [hins]
        obtain ⟨ms, hms⟩ := ih (ns ++ [(n, ⟨ts, 0⟩)])
        exact ⟨(n, ⟨ts, 0⟩) :: ms, by rw [hms, List.append_assoc]; rfl⟩

theorem mem_emissions_shouldRemove (t : NodeLatencyTracker)
    (list : List String) (dels : List (String × Bool)) (ts : Time)
    (s : MetricSample) (hs : s ∈ (UpdateStateWithUnneededList t list dels ts).2) :
    shouldRemoveKey list dels s.node = true ∧ s.actuatorInitiated = false := by
  rw [snd_UpdateStateWithUnneededList] at hs
  obtain ⟨p, hp, hps⟩ := List.mem_map.mp hs
  have hrem := (List.mem_filter.mp hp).2
  subst hps
  exact ⟨hrem, rfl⟩

theorem emission_of_removed (t : NodeLatencyTracker) (list : List String)
    (dels : List (String × Bool)) (ts : Time) (n : String) (info : NodeInfo)
    (h : t.lookup n = some info) (hl : ¬ n ∈ list)
    (hd : delKeys dels n = false) :
    (⟨n, false, ts - info.unneededSince - info.threshold⟩ : MetricSample) ∈
      (UpdateStateWithUnneededList t list dels ts).2 := by
  rw [snd_UpdateStateWithUnneededList]
  have hmem : (n, info) ∈ t.nodes := lookupNode_some_mem t.nodes n info h
  obtain ⟨ms, hms⟩ := trackNew_eq_append list t.nodes ts
  have hmem1 : (n, info) ∈ trackNew t.nodes list ts := by
    rw [hms]
    exact List.mem_append_left ms hmem
  have hrem : shouldRemoveKey list dels n = true := by
    unfold shouldRemoveKey
    simpa [hd] using hl
  refine List.mem_map.mpr ⟨(n, info), List.mem_filter.mpr ⟨hmem1, hrem⟩, rfl⟩

theorem count_emissions_of_nodup (t : NodeLatencyTracker) (list : List String)
    (dels : List (String × Bool)) (ts : Time) (n : String)
    (hnd : KeysNodup t) :
    ((UpdateStateWithUnneededList t list dels ts).2.filter
        (fun s => s.node == n)).length =
      if ((t.lookup n).isSome &&
          ((UpdateStateWithUnneededList t list dels ts).1.lookup n).isNone)
      then 1 else 0 := by
  rw [snd_UpdateStateWithUnneededList, List.filter_map, List.filter_filter]
  have hnd1 : ((trackNew t.nodes list ts).map Prod.fst).Nodup :=
    keysNodup_trackNew list t.nodes ts hnd
  rw [lookup_UpdateStateWithUnneededList]
  by_cases hsr : shouldRemoveKey list dels n = true
  · have hcongr : (trackNew t.nodes list ts).filter
        (fun p => ((fun s : MetricSample => s.node == n) ∘
          (fun p : String × NodeInfo =>
            (⟨p.1, false, ts - p.2.unneededSince - p.2.threshold⟩ :
              MetricSample))) p && shouldRemoveKey list dels p.1) =
        (trackNew t.nodes list ts).filter (fun p => p.1 == n) := by
      apply List.filter_congr
      intro p _
      by_cases hpn : (p.1 == n) = true
      · have : p.1 = n := by simpa using hpn
        simp [Function.comp, hpn, this, hsr]
      · rw [Bool.not_eq_true] at hpn
        simp [Function.comp, hpn]
    rw [hcongr, List.length_map, length_filter_key_of_nodup _ n hnd1]
    have hsr' : ¬ n ∈ list ∧ delKeys dels n = false := by
      unfold shouldRemoveKey at hsr
      simpa using hsr
    obtain ⟨hl, hd⟩ := hsr'
    rw [lookupNode_trackNew]
    simp only [if_neg hl, hd, Bool.false_eq_true, if_false,
      NodeLatencyTracker.lookup]
    cases ht : lookupNode t.nodes n <;> simp [ht]
  · have hzero : (trackNew t.nodes list ts).filter
        (fun p => ((fun s : MetricSample => s.node == n) ∘
          (fun p : String × NodeInfo =>
            (⟨p.1, false, ts - p.2.unneededSince - p.2.threshold⟩ :
              MetricSample))) p && shouldRemoveKey list dels p.1) = [] := by
      rw [List.filter_eq_nil_iff]
      intro p _ hp
      simp only [Function.comp] at hp
      rw [Bool.and_eq_true] at hp
      have hpn : p.1 = n := by simpa using hp.1
      rw [hpn] at hp
      exact hsr hp.2
    rw [hzero]
    have hne : (if n ∈ list then
        (match t.lookup n with
         | some i => some i
         | none => some ⟨ts, 0⟩)
      else if delKeys dels n then t.lookup n else none).isNone = false ∨
        (t.lookup n).isSome = false := by
      by_cases hl : n ∈ list
      · left
        simp only [if_pos hl]
        cases ht : t.lookup n <;> simp
      · have hd : delKeys dels n = true := by
          by_contra hdf
          apply hsr
          unfold shouldRemoveKey
          have hdf' : delKeys dels n = false := by simpa using hdf
          simpa [hdf'] using hl
        cases ht : t.lookup n with
        | none => right; simp [ht]
        | some i =>
            left
            simp [if_neg hl, hd, ht]
    rcases hne with hne | hne <;> simp [hne]

/-! ### Lemmas about repeated reconciliation and edge-case inputs -/

theorem fst_UpdateStateWithUnneededList (t : NodeLatencyTracker)
    (list : List String) (dels : List (String × Bool)) (ts : Time) :
    (UpdateStateWithUnneededList t list dels ts).1 =
      ⟨(trackNew t.nodes list ts).filter
        (fun p => !(shouldRemoveKey list dels p.1))⟩ := rfl

theorem trackNew_eq_of_all_present (list : List String)
    (ns : List (String × NodeInfo)) (ts : Time)
    (h : ∀ n ∈ list, keyMem ns n = true) : trackNew ns list ts = ns := by
  induction list generalizing ns with
  | nil => rfl
  | cons n l ih =>
      have hstep : trackNew ns (n :: l) ts =
          trackNew (insertIfAbsent ns n ts) l ts := rfl
      have hins : insertIfAbsent ns n ts = ns := by
        unfold insertIfAbsent
        rw [if_pos (h n (List.mem_cons_self n l))]
      rw [hstep, hins]
      exact ih ns (fun m hm => h m (List.mem_cons_of_mem n hm))

theorem UpdateState_repeat (t : NodeLatencyTracker) (list : List String)
    (dels : List (String × Bool)) (ts ts2 : Time) :
    UpdateStateWithUnneededList
        (UpdateStateWithUnneededList t list dels ts).1 list dels ts2 =
      ((UpdateStateWithUnneededList t list dels ts).1, []) := by
  have hnodes : (UpdateStateWithUnneededList t list dels ts).1.nodes =
      (trackNew t.nodes list ts).filter
        (fun p => !(shouldRemoveKey list dels p.1)) := rfl
  have hall : ∀ n ∈ list,
      keyMem (UpdateStateWithUnneededList t list dels ts).1.nodes n = true := by
    intro n hn
    rw [keyMem_eq_isSome_lookupNode]
    have hlk := lookup_UpdateStateWithUnneededList t list dels ts n
    rw [if_pos hn] at hlk
    show ((UpdateStateWithUnneededList t list dels ts).1.lookup n).isSome = true
    rw [hlk]
    cases t.lookup n <;> rfl
  have htrack := trackNew_eq_of_all_present list
    (UpdateStateWithUnneededList t list dels ts).1.nodes ts2 hall
  have h1 : (UpdateStateWithUnneededList
      (UpdateStateWithUnneededList t list dels ts).1 list dels ts2).1 =
      (UpdateStateWithUnneededList t list dels ts).1 := by
    rw [fst_UpdateStateWithUnneededList, htrack]
    have hkept : (UpdateStateWithUnneededList t list dels ts).1.nodes.filter
        (fun p => !(shouldRemoveKey list dels p.1)) =
        (UpdateStateWithUnneededList t list dels ts).1.nodes := by
      conv_lhs => rw [hnodes]
      rw [List.filter_filter]
      rw [hnodes]
      exact List.filter_congr (fun p _ => by
        cases shouldRemoveKey list dels p.1 <;> rfl)
    rw [hkept]
  have h2 : (UpdateStateWithUnneededList
      (UpdateStateWithUnneededList t list dels ts).1 list dels ts2).2 = [] := by
    rw [snd_UpdateStateWithUnneededList, htrack]
    have hrem : (UpdateStateWithUnneededList t list dels ts).1.nodes.filter
        (fun p => shouldRemoveKey list dels p.1) = [] := by
      conv_lhs => rw [hnodes]
      rw [List.filter_filter]
      have hfalse : (trackNew t.nodes list ts).filter
          (fun p => shouldRemoveKey list dels p.1 &&
            !(shouldRemoveKey list dels p.1)) =
          (trackNew t.nodes list ts).filter (fun _ => false) :=
        List.filter_congr (fun p _ => by
          cases shouldRemoveKey list dels p.1 <;> rfl)
      rw [hfalse, List.filter_false]
    rw [hrem]
    rfl
  exact Prod.ext h1 h2

theorem UpdateState_empty_inputs (t : NodeLatencyTracker) (ts : Time) :
    (UpdateStateWithUnneededList t [] [] ts).1 = (⟨[]⟩ : NodeLatencyTracker) ∧
      (UpdateStateWithUnneededList t [] [] ts).2.length = t.nodes.length := by
  have htrack : trackNew t.nodes [] ts = t.nodes := rfl
  have hsr : ∀ x : String, shouldRemoveKey [] [] x = true := fun x => rfl
  constructor
  · rw [fst_UpdateStateWithUnneededList, htrack]
    have hnil : t.nodes.filter (fun p => !(shouldRemoveKey [] [] p.1)) =
        t.nodes.filter (fun _ => false) :=
      List.filter_congr (fun p _ => by rw [hsr p.1]; rfl)
    rw [hnil, List.filter_false]
  · rw [snd_UpdateStateWithUnneededList, htrack, List.length_map]
    have hall : t.nodes.filter (fun p => shouldRemoveKey [] [] p.1) =
        t.nodes.filter (fun _ => true) :=
      List.filter_congr (fun p _ => hsr p.1)
    rw [hall, List.filter_true]

theorem delKeys_eq_any_keys (dels : List (String × Bool)) (m : String) :
    delKeys dels m = (dels.map Prod.fst).any (fun k => k == m) := by
  induction dels with
  | nil => rfl
  | cons q l ih => simp [delKeys, List.any_cons, ← ih, delKeys]

/-! ### Claim theorems -/

/-- C1: every node removed from the tracker's map triggers exactly one metric
sample (never zero, never more than one).  `UpdateStateWithUnneededList`
emits, for each node, exactly one sample precisely when that node was
tracked before the call and is untracked after it, all samples tagged
not-actuator-initiated (`false`); `ObserveDeletion` on a tracked node
removes exactly that one entry and emits exactly one sample tagged
actuator-initiated (`true`); on an untracked node it removes nothing and
emits nothing. -/
theorem removal_emission_exactly_once (t : NodeLatencyTracker)
    (list : List String) (dels : List (String × Bool)) (ts : Time)
    (hnd : KeysNodup t) :
    ((∀ s ∈ (UpdateStateWithUnneededList t list dels ts).2,
        s.actuatorInitiated = false) ∧
      (∀ n : String,
        ((UpdateStateWithUnneededList t list dels ts).2.filter
            (fun s => s.node == n)).length =
          if ((t.lookup n).isSome &&
              ((UpdateStateWithUnneededList t list dels ts).1.lookup n).isNone)
          then 1 else 0)) ∧
    (∀ n ts2 info, t.lookup n = some info →
        (ObserveDeletion t n ts2).2 =
          some ⟨n, true, ts2 - info.unneededSince - info.threshold⟩ ∧
        (ObserveDeletion t n ts2).1.lookup n = none ∧
        (ObserveDeletion t n ts2).1.nodes.length + 1 = t.nodes.length) ∧
    (∀ n ts2, t.lookup n = none → ObserveDeletion t n ts2 = (t, none)) := by
  refine ⟨⟨?_, ?_⟩, ?_, ?_⟩
  · intro s hs
    exact (mem_emissions_shouldRemove t list dels ts s hs).2
  · intro n
    exact count_emissions_of_nodup t list dels ts n hnd
  · intro n ts2 info h
    refine ⟨?_, lookup_ObserveDeletion_self t n ts2,
      length_ObserveDeletion_of_tracked t n ts2 info hnd h⟩
    rw [snd_ObserveDeletion, h]
    rfl
  · intro n ts2 h
    have h' : lookupNode t.nodes n = none := h
    unfold ObserveDeletion
    rw [h']

/-- C1 witness: on a concrete two-node tracker, reconciling with only the
first node listed emits exactly one sample for the disappeared second node. -/
theorem removal_emission_exactly_once_check :
    ((UpdateStateWithUnneededList ⟨[("a", ⟨0, 0⟩), ("b", ⟨1, 2⟩)]⟩
        ["a"] [] 10).2.filter (fun s => s.node == "b")).length = 1 :=
  (((removal_emission_exactly_once ⟨[("a", ⟨0, 0⟩), ("b", ⟨1, 2⟩)]⟩
      ["a"] [] 10 (by unfold KeysNodup; decide)).1.2) "b").trans (by decide)

/-- C2: for a tracked node with `unneededSince = T0` and `threshold = Th`, a
removal observed at `T1` emits duration exactly `T1 - T0 - Th` — via
`ObserveDeletion` and via the disappearance path of
`UpdateStateWithUnneededList` alike; the integer value is passed through
unmodified (negative values included). -/
theorem removal_duration_exact (t : NodeLatencyTracker) (n : String)
    (info : NodeInfo) (ts : Time) (h : t.lookup n = some info) :
    (ObserveDeletion t n ts).2 =
      some ⟨n, true, ts - info.unneededSince - info.threshold⟩ ∧
    (∀ list dels, ¬ n ∈ list → delKeys dels n = false →
      (⟨n, false, ts - info.unneededSince - info.threshold⟩ : MetricSample) ∈
        (UpdateStateWithUnneededList t list dels ts).2) := by
  constructor
  · rw [snd_ObserveDeletion, h]
    rfl
  · intro list dels hl hd
    exact emission_of_removed t list dels ts n info h hl hd

/-- C2 witness: with `T0 = 10`, `Th = 100`, observation at `T1 = 20`, the
emitted duration is `20 - 10 - 100 = -90`, a negative value, not clamped. -/
theorem removal_duration_exact_check :
    (ObserveDeletion ⟨[("a", ⟨10, 100⟩)]⟩ "a" 20).2 =
      some ⟨"a", true, 20 - 10 - 100⟩ ∧ ((20 : Int) - 10 - 100 = -90) :=
  ⟨(removal_duration_exact ⟨[("a", ⟨10, 100⟩)]⟩ "a" ⟨10, 100⟩ 20 rfl).1,
   by norm_num⟩

/-- C4: reconcile insertion is idempotent — a tracked node that appears in
the unneeded list keeps its entry (both fields) unchanged, and a second
reconcile with the same sets leaves every listed node's entry as after the
first. -/
theorem reconcile_insertion_idempotent (t : NodeLatencyTracker)
    (list : List String) (dels : List (String × Bool)) (ts ts2 : Time) :
    (∀ n info, t.lookup n = some info → n ∈ list →
      (UpdateStateWithUnneededList t list dels ts).1.lookup n = some info) ∧
    (∀ n, n ∈ list →
      (UpdateStateWithUnneededList
          (UpdateStateWithUnneededList t list dels ts).1
          list dels ts2).1.lookup n =
        (UpdateStateWithUnneededList t list dels ts).1.lookup n) := by
  constructor
  · intro n info h hl
    rw [lookup_UpdateStateWithUnneededList, if_pos hl, h]
  · intro n _
    rw [UpdateState_repeat]

/-- C4 witness: a node tracked with `unneededSince = 3`, `threshold = 7`
keeps exactly that entry when reconciled with a list containing it. -/
theorem reconcile_insertion_idempotent_check :
    (UpdateStateWithUnneededList ⟨[("a", ⟨3, 7⟩)]⟩ ["a"] [] 9).1.lookup "a" =
      some ⟨3, 7⟩ :=
  (reconcile_insertion_idempotent ⟨[("a", ⟨3, 7⟩)]⟩ ["a"] [] 9 9).1
    "a" ⟨3, 7⟩ rfl (by decide)

/-- C5: in-deletion suppression — a tracked node absent from the unneeded
list but whose key is present in `currentlyInDeletion` stays tracked with
its entry unchanged and no sample is emitted for it; `Reconcile` removes a
tracked node only when it is absent from both sets; the suppressed node is
removed (with emission) by a subsequent `ObserveDeletion`. -/
theorem in_deletion_suppression (t : NodeLatencyTracker) (list : List String)
    (dels : List (String × Bool)) (ts : Time) :
    (∀ n info, t.lookup n = some info → ¬ n ∈ list → delKeys dels n = true →
      (UpdateStateWithUnneededList t list dels ts).1.lookup n = some info ∧
      ∀ s ∈ (UpdateStateWithUnneededList t list dels ts).2, ¬ s.node = n) ∧
    (∀ n, (t.lookup n).isSome = true →
      (UpdateStateWithUnneededList t list dels ts).1.lookup n = none →
      ¬ n ∈ list ∧ delKeys dels n = false) ∧
    (∀ n info ts2, t.lookup n = some info →
      (ObserveDeletion t n ts2).1.lookup n = none ∧
      ((ObserveDeletion t n ts2).2).isSome = true) := by
  refine ⟨?_, ?_, ?_⟩
  · intro n info h hl hd
    constructor
    · rw [lookup_UpdateStateWithUnneededList, if_neg hl, if_pos hd]
      exact h
    · intro s hs heq
      have hrem := (mem_emissions_shouldRemove t list dels ts s hs).1
      rw [heq] at hrem
      unfold shouldRemoveKey at hrem
      rw [Bool.and_eq_true] at hrem
      rw [hd] at hrem
      exact absurd hrem.2 (by decide)
  · intro n hsome hnone
    rw [lookup_UpdateStateWithUnneededList] at hnone
    by_cases hl : n ∈ list
    · rw [if_pos hl] at hnone
      cases ht : t.lookup n with
      | none => rw [ht] at hsome; cases hsome
      | some i => rw [ht] at hnone; cases hnone
    · rw [if_neg hl] at hnone
      by_cases hd : delKeys dels n = true
      · rw [if_pos hd] at hnone
        rw [hnone] at hsome
        cases hsome
      · exact ⟨hl, by simpa using hd⟩
  · intro n info ts2 h
    refine ⟨lookup_ObserveDeletion_self t n ts2, ?_⟩
    rw [snd_ObserveDeletion, h]
    rfl

/-- C5 witness: a tracked node absent from the unneeded list but present in
the in-deletion set keeps its entry through a reconcile. -/
theorem in_deletion_suppression_check :
    (UpdateStateWithUnneededList ⟨[("a", ⟨1, 2⟩)]⟩ [] [("a", true)] 9).1.lookup
        "a" = some ⟨1, 2⟩ :=
  (((in_deletion_suppression ⟨[("a", ⟨1, 2⟩)]⟩ [] [("a", true)] 9).1)
      "a" ⟨1, 2⟩ rfl (by decide) (by decide)).1

/-- C6: unknown-node no-ops — `ObserveDeletion` and `UpdateThreshold` on an
id that is not in the map return the tracker unchanged, emit nothing, and
surface no error (the result type has no error component). -/
theorem unknown_node_noop (t : NodeLatencyTracker) (n : String) (ts : Time)
    (th : Duration) (h : t.lookup n = none) :
    ObserveDeletion t n ts = (t, none) ∧ UpdateThreshold t n th = t := by
  have h' : lookupNode t.nodes n = none := h
  constructor
  · unfold ObserveDeletion
    rw [h']
  · unfold UpdateThreshold
    rw [h']

/-- C6 witness: deleting or re-thresholding an unknown node on a concrete
one-node tracker changes nothing. -/
theorem unknown_node_noop_check :
    ObserveDeletion ⟨[("a", ⟨0, 0⟩)]⟩ "z" 4 = (⟨[("a", ⟨0, 0⟩)]⟩, none) ∧
    UpdateThreshold ⟨[("a", ⟨0, 0⟩)]⟩ "z" 9 = ⟨[("a", ⟨0, 0⟩)]⟩ :=
  unknown_node_noop ⟨[("a", ⟨0, 0⟩)]⟩ "z" 4 9 (by decide)

/-- C7: `UpdateThreshold` on a tracked node overwrites only that node's
threshold: the node's `unneededSince` is preserved, every other node's
entry is untouched and the set of tracked nodes is unchanged; repeated
updates keep only the most recent threshold, and a removal after an update
computes its duration with the most recent threshold while `unneededSince`
is still the originally recorded value. -/
theorem update_threshold_frame (t : NodeLatencyTracker) (n : String)
    (info : NodeInfo) (th : Duration) (h : t.lookup n = some info) :
    (UpdateThreshold t n th).lookup n = some ⟨info.unneededSince, th⟩ ∧
    (∀ m, ¬ m = n → (UpdateThreshold t n th).lookup m = t.lookup m) ∧
    GetTrackedNodes (UpdateThreshold t n th) = GetTrackedNodes t ∧
    (∀ th2, (UpdateThreshold (UpdateThreshold t n th) n th2).lookup n =
      some ⟨info.unneededSince, th2⟩) ∧
    (∀ ts, (ObserveDeletion (UpdateThreshold t n th) n ts).2 =
      some ⟨n, true, ts - info.unneededSince - th⟩) := by
  refine ⟨lookup_UpdateThreshold_self t n th info h,
    fun m hm => lookup_UpdateThreshold_other t n m th hm,
    keys_UpdateThreshold t n th, ?_, ?_⟩
  · intro th2
    exact lookup_UpdateThreshold_self (UpdateThreshold t n th) n th2
      ⟨info.unneededSince, th⟩ (lookup_UpdateThreshold_self t n th info h)
  · intro ts
    rw [snd_ObserveDeletion, lookup_UpdateThreshold_self t n th info h]
    rfl

/-- C7 witness: updating the threshold of one of two tracked nodes rewrites
only that threshold and leaves the other node's entry intact. -/
theorem update_threshold_frame_check :
    (UpdateThreshold ⟨[("a", ⟨2, 1⟩), ("b", ⟨3, 4⟩)]⟩ "a" 6).lookup "a" =
      some ⟨2, 6⟩ ∧
    (UpdateThreshold ⟨[("a", ⟨2, 1⟩), ("b", ⟨3, 4⟩)]⟩ "a" 6).lookup "b" =
      some ⟨3, 4⟩ := by
  have h := update_threshold_frame ⟨[("a", ⟨2, 1⟩), ("b", ⟨3, 4⟩)]⟩
    "a" ⟨2, 1⟩ 6 rfl
  refine ⟨h.1, ?_⟩
  rw [h.2.1 "b" (by decide)]
  rfl

/-- C8: `UpdateStateWithUnneededList` is the only entry-creating operation,
and every entry it creates carries `unneededSince` equal to the call's
timestamp and `threshold = 0`; an untracked node not in the unneeded list
stays untracked through a reconcile, and `ObserveDeletion` and
`UpdateThreshold` never create entries — so a node removed earlier that
reappears in the list is re-tracked with fresh values. -/
theorem creation_path_fresh (t : NodeLatencyTracker) (list : List String)
    (dels : List (String × Bool)) (ts : Time) :
    (∀ n, t.lookup n = none → n ∈ list →
      (UpdateStateWithUnneededList t list dels ts).1.lookup n =
        some ⟨ts, 0⟩) ∧
    (∀ n, t.lookup n = none → ¬ n ∈ list →
      (UpdateStateWithUnneededList t list dels ts).1.lookup n = none) ∧
    (∀ n m ts2, t.lookup n = none →
      (ObserveDeletion t m ts2).1.lookup n = none) ∧
    (∀ n m th, t.lookup n = none → (UpdateThreshold t m th).lookup n = none) := by
  refine ⟨?_, ?_, ?_, ?_⟩
  · intro n h hl
    rw [lookup_UpdateStateWithUnneededList, if_pos hl, h]
  · intro n h hl
    rw [lookup_UpdateStateWithUnneededList, if_neg hl]
    by_cases hd : delKeys dels n = true
    · rw [if_pos hd]
      exact h
    · rw [if_neg hd]
  · intro n m ts2 h
    by_cases hnm : n = m
    · subst hnm
      exact lookup_ObserveDeletion_self t n ts2
    · rw [lookup_ObserveDeletion_other t m n ts2 hnm]
      exact h
  · intro n m th h
    unfold UpdateThreshold
    cases hl : lookupNode t.nodes m with
    | none => exact h
    | some info =>
        show lookupNode (t.nodes.map _) n = none
        by_cases hnm : n = m
        · subst hnm
          have h' : lookupNode t.nodes n = none := h
          rw [hl] at h'
          cases h'
        · rw [lookupNode_overwrite_other t.nodes m n _ hnm]
          exact h

/-- C8 witness: reconciling an empty tracker with one listed node creates
exactly the entry with the call timestamp and zero threshold. -/
theorem creation_path_fresh_check :
    (UpdateStateWithUnneededList ⟨[]⟩ ["a"] [] 11).1.lookup "a" =
      some ⟨11, 0⟩ :=
  (creation_path_fresh ⟨[]⟩ ["a"] [] 11).1 "a" rfl (by decide)

/-- C9 counterexample: an empty unneeded list with an empty in-deletion set
is NOT a no-op on a nonempty tracker — the call evicts the tracked node and
emits a sample, so the claim that such edge-case inputs complete as no-ops
fails on the code. -/
theorem edge_cases_total_cex :
    UpdateStateWithUnneededList ⟨[("n1", ⟨0, 0⟩)]⟩ [] [] 5 ≠
      (⟨[("n1", ⟨0, 0⟩)]⟩, []) ∧
    UpdateStateWithUnneededList ⟨[("n1", ⟨0, 0⟩)]⟩ [] [] 5 =
      (⟨[]⟩, [⟨"n1", false, 5⟩]) :=
  ⟨by decide, by decide⟩

/-- C9 (amended): every operation is total — none returns an error value —
and the edge cases behave as follows: unknown node ids on deletion or
threshold-update are no-ops with no emission; repeated reconciliation with
the same sets is a no-op with no emission; empty unneeded and in-deletion
sets on an EMPTY tracker are a no-op; on a nonempty tracker an empty
unneeded list (with empty in-deletion set) is not a no-op: it evicts every
tracked node, emitting one sample per evicted node. -/
theorem edge_cases_total_amended (t : NodeLatencyTracker) (list : List String)
    (dels : List (String × Bool)) (ts ts2 : Time) (n : String)
    (th : Duration) :
    (t.lookup n = none →
      ObserveDeletion t n ts = (t, none) ∧ UpdateThreshold t n th = t) ∧
    UpdateStateWithUnneededList
        (UpdateStateWithUnneededList t list dels ts).1 list dels ts2 =
      ((UpdateStateWithUnneededList t list dels ts).1, []) ∧
    UpdateStateWithUnneededList (⟨[]⟩ : NodeLatencyTracker) [] [] ts =
      ((⟨[]⟩ : NodeLatencyTracker), []) ∧
    ((UpdateStateWithUnneededList t [] [] ts).1 =
        (⟨[]⟩ : NodeLatencyTracker) ∧
      (UpdateStateWithUnneededList t [] [] ts).2.length =
        t.nodes.length) := by
  refine ⟨?_, UpdateState_repeat t list dels ts ts2, rfl,
    UpdateState_empty_inputs t ts⟩
  intro h
  have h' : lookupNode t.nodes n = none := h
  constructor
  · unfold ObserveDeletion
    rw [h']
  · unfold UpdateThreshold
    rw [h']

/-- C9 witness: the unknown-node edge case at a concrete input. -/
theorem edge_cases_total_amended_check :
    ObserveDeletion (⟨[]⟩ : NodeLatencyTracker) "x" 0 =
      ((⟨[]⟩ : NodeLatencyTracker), none) ∧
    UpdateThreshold (⟨[]⟩ : NodeLatencyTracker) "x" 3 =
      (⟨[]⟩ : NodeLatencyTracker) :=
  (edge_cases_total_amended ⟨[]⟩ [] [] 0 0 "x" 3).1 rfl

/-- C10: the in-deletion argument is consulted by key presence only, never
by its Boolean value — two reconciles whose in-deletion maps have the same
keys produce identical states and identical emissions, and a disappeared
tracked node whose key maps to `false` is still left tracked. -/
theorem in_deletion_key_presence_only (t : NodeLatencyTracker)
    (list : List String) (dels dels2 : List (String × Bool)) (ts : Time)
    (hkeys : dels.map Prod.fst = dels2.map Prod.fst) :
    UpdateStateWithUnneededList t list dels ts =
      UpdateStateWithUnneededList t list dels2 ts ∧
    (∀ n info, t.lookup n = some info → ¬ n ∈ list → (n, false) ∈ dels →
      (UpdateStateWithUnneededList t list dels ts).1.lookup n =
        some info) := by
  have hDel : ∀ m, delKeys dels m = delKeys dels2 m := by
    intro m
    rw [delKeys_eq_any_keys, delKeys_eq_any_keys, hkeys]
  have hsr : ∀ x, shouldRemoveKey list dels x = shouldRemoveKey list dels2 x := by
    intro x
    unfold shouldRemoveKey
    rw [hDel]
  constructor
  · apply Prod.ext
    · rw [fst_UpdateStateWithUnneededList, fst_UpdateStateWithUnneededList]
      have : (trackNew t.nodes list ts).filter
          (fun p => !(shouldRemoveKey list dels p.1)) =
          (trackNew t.nodes list ts).filter
            (fun p => !(shouldRemoveKey list dels2 p.1)) :=
        List.filter_congr (fun p _ => by rw [hsr p.1])
      rw [this]
    · rw [snd_UpdateStateWithUnneededList, snd_UpdateStateWithUnneededList]
      exact congrArg _ (List.filter_congr (fun p _ => hsr p.1))
  · intro n info h hl hmem
    have hd : delKeys dels n = true := by
      unfold delKeys
      rw [List.any_eq_true]
      exact ⟨(n, false), hmem, by simp⟩
    rw [lookup_UpdateStateWithUnneededList, if_neg hl, if_pos hd]
    exact h

/-- C10 witness: mapping the in-deletion key to `false` instead of `true`
yields the identical reconcile result, and the node whose key maps to
`false` is still suppressed from removal. -/
theorem in_deletion_key_presence_only_check :
    UpdateStateWithUnneededList ⟨[("a", ⟨0, 0⟩)]⟩ [] [("a", false)] 7 =
      UpdateStateWithUnneededList ⟨[("a", ⟨0, 0⟩)]⟩ [] [("a", true)] 7 ∧
    (UpdateStateWithUnneededList ⟨[("a", ⟨0, 0⟩)]⟩ [] [("a", false)] 7).1.lookup
        "a" = some ⟨0, 0⟩ := by
  have h := in_deletion_key_presence_only ⟨[("a", ⟨0, 0⟩)]⟩ []
    [("a", false)] [("a", true)] 7 rfl
  exact ⟨h.1, h.2 "a" ⟨0, 0⟩ rfl (by decide) (by decide)⟩
